import Mathlib

/-!
Shallow embedding over the reals of the ultraviolet geometry and transform
modules (`src/geometry.rs`, `src/transform.rs`).  The scalar type `f32` is
modelled by `ℝ` (the claims are stated "exactly over the reals"); Rust
constants such as `std::f32::MIN` are modelled by their exact real values.
The vector, rotation and matrix collaborators are external to the two source
files and are modelled from the spec (§6).

The file is organised as definitions first, then theorems.
-/

noncomputable section

/-- Modelled from the spec: the external 3D vector collaborator (§6),
with componentwise arithmetic over the reals. -/
structure Vec3 where
  x : ℝ
  y : ℝ
  z : ℝ

namespace Vec3

/-- Modelled from the spec: vector addition. -/
def add (a b : Vec3) : Vec3 := ⟨a.x + b.x, a.y + b.y, a.z + b.z⟩

/-- Modelled from the spec: vector negation. -/
def neg (a : Vec3) : Vec3 := ⟨-a.x, -a.y, -a.z⟩

/-- Modelled from the spec: vector subtraction. -/
def sub (a b : Vec3) : Vec3 := ⟨a.x - b.x, a.y - b.y, a.z - b.z⟩

/-- Modelled from the spec: the zero vector. -/
def zero : Vec3 := ⟨0, 0, 0⟩

instance : Add Vec3 := ⟨Vec3.add⟩
instance : Neg Vec3 := ⟨Vec3.neg⟩
instance : Sub Vec3 := ⟨Vec3.sub⟩

/-- Modelled from the spec: scalar multiplication `s * v`. -/
instance : SMul ℝ Vec3 := ⟨fun c v => ⟨c * v.x, c * v.y, c * v.z⟩⟩

/-- Modelled from the spec: vector-times-scalar `v * s`. -/
instance : HMul Vec3 ℝ Vec3 := ⟨fun v c => ⟨v.x * c, v.y * c, v.z * c⟩⟩

/-- Modelled from the spec: vector-divided-by-scalar `v / s`. -/
instance : HDiv Vec3 ℝ Vec3 := ⟨fun v c => ⟨v.x / c, v.y / c, v.z / c⟩⟩

/-- Modelled from the spec: the Euclidean dot product. -/
def dot (a b : Vec3) : ℝ := a.x * b.x + a.y * b.y + a.z * b.z

/-- Modelled from the spec: `mag()`, the Euclidean norm. -/
def mag (v : Vec3) : ℝ := Real.sqrt (v.dot v)

/-- Modelled from the spec: `normalized()`, the vector divided by its magnitude. -/
def normalized (v : Vec3) : Vec3 := v / v.mag

end Vec3

/-- Exact real value of Rust's `std::f32::MIN`, the most negative finite
`f32`, namely `-(2 - 2⁻²³)·2¹²⁷ = -(2¹²⁸ - 2¹⁰⁴)`.  This is the constant the
source compares against in `Plane::intersect_line`. -/
def f32_MIN : ℝ := -((2 : ℝ) ^ (128 : ℕ) - (2 : ℝ) ^ (104 : ℕ))

/-- Exact real value of Rust's `f32::MIN_POSITIVE`, the smallest positive
normal `f32`, namely `2⁻¹²⁶` (the constant the spec's words describe). -/
def f32_MIN_POSITIVE : ℝ := ((2 : ℝ) ^ (126 : ℕ))⁻¹

/-- Embeds `Plane` from `src/geometry.rs`: a normal vector and a bias. -/
structure Plane where
  normal : Vec3
  bias : ℝ

namespace Plane

/-- Embeds `Plane::new`: the raw constructor, no normalization. -/
def new (normal : Vec3) (bias : ℝ) : Plane := ⟨normal, bias⟩

/-- Embeds `Plane::from_point_normal`: normalizes `normal`,
`bias = dot(point, normalized)`. -/
def from_point_normal (point normal : Vec3) : Plane :=
  let normalized := normal.normalized
  { normal := Vec3.mk normalized.x normalized.y normalized.z
    bias := point.dot normalized }

/-- Embeds `Plane::with_z`: the plane facing along the Z axis at coordinate `z`. -/
def with_z (z : ℝ) : Plane :=
  from_point_normal (Vec3.mk 0 0 z) (Vec3.mk 0 0 1)

/-- Embeds `Plane::normalize`: divides `normal` and `bias` by `|normal|`. -/
def normalize (p : Plane) : Plane :=
  let distance := p.normal.mag
  { normal := p.normal / distance
    bias := p.bias / distance }

/-- Embeds `Plane::dot_point`: `dot(normal, point) + bias`. -/
def dot_point (p : Plane) (point : Vec3) : ℝ :=
  p.normal.x * point.x + p.normal.y * point.y + p.normal.z * point.z + p.bias

/-- Embeds `Plane::dot`: `dot(normal, point)`, without the bias term. -/
def dot (p : Plane) (point : Vec3) : ℝ :=
  p.normal.x * point.x + p.normal.y * point.y + p.normal.z * point.z

/-- Embeds `Plane::dot_plane`: the 4-component inner product over
`(normal, bias)`. -/
def dot_plane (p q : Plane) : ℝ :=
  p.normal.x * q.normal.x + p.normal.y * q.normal.y + p.normal.z * q.normal.z
    + p.bias * q.bias

/-- Embeds `Plane::intersect_line`: computes `fv = dot(direction)`, divides
first, then tests `|fv| > std::f32::MIN` (the most negative finite float). -/
def intersect_line (p : Plane) (point direction : Vec3) : Option ℝ :=
  let fv := p.dot direction
  let distance := p.dot_point point / fv
  if |fv| > f32_MIN then some distance else none

end Plane

/-- Embeds `Ray` from `src/geometry.rs`. -/
structure Ray where
  origin : Vec3
  direction : Vec3

/-- Embeds `Plane::intersect_ray`: delegates to `intersect_line` on the ray's
origin and direction. -/
def Plane.intersect_ray (p : Plane) (ray : Ray) : Option ℝ :=
  p.intersect_line ray.origin ray.direction

namespace Ray

/-- Embeds `Ray::intersect_plane`: delegates to `Plane::intersect_ray`. -/
def intersect_plane (r : Ray) (plane : Plane) : Option ℝ :=
  plane.intersect_ray r

/-- Embeds `Ray::at_distance`: `origin - (direction * z)`. -/
def at_distance (r : Ray) (z : ℝ) : Vec3 :=
  r.origin - (r.direction * z)

end Ray

/-- Modelled from the spec: the external rotation collaborator `Rotor3` (§6,
glossary).  A unit-norm rotation is represented by its rotation matrix,
bundled with the invariant that its `reverse` (the transpose) is its
algebraic inverse. -/
structure Rotor3 where
  m : Matrix (Fin 3) (Fin 3) ℝ
  orth : m * m.transpose = 1

namespace Rotor3

/-- Modelled from the spec: the identity rotation. -/
def identity : Rotor3 := ⟨1, by simp⟩

/-- Modelled from the spec: `reverse()`, the rotation's algebraic inverse
(matrix transpose). -/
def reverse (r : Rotor3) : Rotor3 :=
  ⟨r.m.transpose, by
    rw [Matrix.transpose_transpose]
    exact Matrix.mul_eq_one_comm.mp r.orth⟩

/-- Modelled from the spec: composition of rotations. -/
def mul (a b : Rotor3) : Rotor3 :=
  ⟨a.m * b.m, by
    rw [Matrix.transpose_mul, mul_assoc, ← mul_assoc b.m, b.orth, one_mul, a.orth]⟩

instance : Mul Rotor3 := ⟨Rotor3.mul⟩

/-- Modelled from the spec: conversion of the rotation to its 3×3 matrix. -/
def into_matrix (r : Rotor3) : Matrix (Fin 3) (Fin 3) ℝ := r.m

/-- A vector as a `Fin 3`-indexed function, for the matrix action. -/
def toFun (v : Vec3) : Fin 3 → ℝ := ![v.x, v.y, v.z]

def ofFun (f : Fin 3 → ℝ) : Vec3 := ⟨f 0, f 1, f 2⟩

/-- Modelled from the spec: application of the rotation to a vector
(matrix-vector product). -/
def apply (r : Rotor3) (v : Vec3) : Vec3 :=
  ofFun (r.m.mulVec (toFun v))

end Rotor3

/-- Modelled from the spec: `Mat3::into_homogeneous`, embedding a 3×3 rotation
matrix into a 4×4 homogeneous matrix (§6). -/
def Mat3.into_homogeneous (m : Matrix (Fin 3) (Fin 3) ℝ) : Matrix (Fin 4) (Fin 4) ℝ :=
  !![m 0 0, m 0 1, m 0 2, 0;
     m 1 0, m 1 1, m 1 2, 0;
     m 2 0, m 2 1, m 2 2, 0;
     0, 0, 0, 1]

/-- Modelled from the spec: `Mat4::from_translation`, the homogeneous matrix
translating by `t` (§6). -/
def Mat4.from_translation (t : Vec3) : Matrix (Fin 4) (Fin 4) ℝ :=
  !![1, 0, 0, t.x;
     0, 1, 0, t.y;
     0, 0, 1, t.z;
     0, 0, 0, 1]

/-- Embeds `Isometry3` from `src/transform.rs`: a translation and a rotation. -/
structure Isometry3 where
  translation : Vec3
  rotation : Rotor3

namespace Isometry3

/-- Embeds `Isometry3::new`. -/
def new (translation : Vec3) (rotation : Rotor3) : Isometry3 :=
  ⟨translation, rotation⟩

/-- Embeds `Isometry3::transform_vec`: `vec = rotation * vec; vec += translation`. -/
def transform_vec (i : Isometry3) (vec : Vec3) : Vec3 :=
  i.rotation.apply vec + i.translation

/-- Embeds the in-place `Isometry3::inverse` as explicit state passing:
first the rotation is reversed, then the translation is set to the *new*
(reversed) rotation applied to the negated old translation. -/
def inverse (i : Isometry3) : Isometry3 :=
  let rotation := i.rotation.reverse
  let translation := rotation.apply (-i.translation)
  { translation := translation, rotation := rotation }

/-- Embeds `Isometry3::inversed`: runs `inverse` on a copy of the receiver
and returns it. -/
def inversed (i : Isometry3) : Isometry3 := i.inverse

/-- Embeds `Mul<Isometry3> for Isometry3`:
`trans = self.transform_vec(base.translation)`, `rot = self.rotation * base.rotation`. -/
instance : Mul Isometry3 :=
  ⟨fun a base => Isometry3.new (a.transform_vec base.translation) (a.rotation * base.rotation)⟩

/-- Embeds `Isometry3::into_homogeneous_matrix`:
`Mat4::from_translation(translation) * rotation.into_matrix().into_homogeneous()`. -/
def into_homogeneous_matrix (i : Isometry3) : Matrix (Fin 4) (Fin 4) ℝ :=
  Mat4.from_translation i.translation * Mat3.into_homogeneous i.rotation.into_matrix

end Isometry3

/-- Embeds `Similarity3` from `src/transform.rs`: translation, rotation and
uniform scale. -/
structure Similarity3 where
  translation : Vec3
  rotation : Rotor3
  scale : ℝ

namespace Similarity3

/-- Embeds `Similarity3::new`. -/
def new (translation : Vec3) (rotation : Rotor3) (scale : ℝ) : Similarity3 :=
  ⟨translation, rotation, scale⟩

/-- Embeds `Similarity3::transform_vec`:
`vec = rotation * vec; vec = scale * vec; vec += translation`. -/
def transform_vec (s : Similarity3) (vec : Vec3) : Vec3 :=
  s.scale • (s.rotation.apply vec) + s.translation

/-- Embeds the in-place `Similarity3::inverse` as explicit state passing:
rotation reversed first, then translation set to the new rotation applied to
the negated old translation (no division by scale), then scale reciprocated. -/
def inverse (s : Similarity3) : Similarity3 :=
  let rotation := s.rotation.reverse
  let translation := rotation.apply (-s.translation)
  let scale := 1 / s.scale
  { translation := translation, rotation := rotation, scale := scale }

/-- Embeds `Similarity3::inversed`: runs `inverse` on a copy and returns it. -/
def inversed (s : Similarity3) : Similarity3 := s.inverse

/-- Embeds `Similarity3::into_homogeneous_matrix`:
`Mat4::from_translation(translation) * rotation.into_matrix().into_homogeneous()`
(the scale field is not used). -/
def into_homogeneous_matrix (s : Similarity3) : Matrix (Fin 4) (Fin 4) ℝ :=
  Mat4.from_translation s.translation * Mat3.into_homogeneous s.rotation.into_matrix

end Similarity3

/-! Theorems.  First the helper lemmas about the embedded collaborators,
then one theorem per claim. -/

namespace Vec3

theorem ext_iff {a b : Vec3} : a = b ↔ a.x = b.x ∧ a.y = b.y ∧ a.z = b.z := by
  cases a; cases b; simp

theorem add_def (a b : Vec3) : a + b = ⟨a.x + b.x, a.y + b.y, a.z + b.z⟩ := rfl

theorem neg_def (a : Vec3) : -a = ⟨-a.x, -a.y, -a.z⟩ := rfl

theorem sub_def (a b : Vec3) : a - b = ⟨a.x - b.x, a.y - b.y, a.z - b.z⟩ := rfl

theorem smul_def (c : ℝ) (v : Vec3) : c • v = ⟨c * v.x, c * v.y, c * v.z⟩ := rfl

theorem mul_scalar_def (v : Vec3) (c : ℝ) : v * c = ⟨v.x * c, v.y * c, v.z * c⟩ := rfl

theorem div_scalar_def (v : Vec3) (c : ℝ) : v / c = ⟨v.x / c, v.y / c, v.z / c⟩ := rfl

theorem dot_self_nonneg (v : Vec3) : 0 ≤ v.dot v := by
  rcases v with ⟨x, y, z⟩
  show 0 ≤ x * x + y * y + z * z
  nlinarith [mul_self_nonneg x, mul_self_nonneg y, mul_self_nonneg z]

theorem dot_self_pos {v : Vec3} (h : v ≠ Vec3.zero) : 0 < v.dot v := by
  rcases v with ⟨x, y, z⟩
  rcases lt_or_eq_of_le (dot_self_nonneg ⟨x, y, z⟩) with hlt | heq
  · exact hlt
  · exfalso
    apply h
    have heq2 : (0 : ℝ) = x * x + y * y + z * z := heq
    have hx : x * x = 0 := by nlinarith [mul_self_nonneg x, mul_self_nonneg y, mul_self_nonneg z]
    have hy : y * y = 0 := by nlinarith [mul_self_nonneg x, mul_self_nonneg y, mul_self_nonneg z]
    have hz : z * z = 0 := by nlinarith [mul_self_nonneg x, mul_self_nonneg y, mul_self_nonneg z]
    simp only [Vec3.zero, Vec3.ext_iff]
    exact ⟨mul_self_eq_zero.mp hx, mul_self_eq_zero.mp hy, mul_self_eq_zero.mp hz⟩

theorem mag_pos {v : Vec3} (h : v ≠ Vec3.zero) : 0 < v.mag :=
  Real.sqrt_pos.mpr (dot_self_pos h)

theorem mag_sq {v : Vec3} : v.mag * v.mag = v.dot v :=
  Real.mul_self_sqrt (dot_self_nonneg v)

theorem add_assoc_eq (u v w : Vec3) : u + v + w = u + (v + w) := by
  rcases u with ⟨a, b, c⟩; rcases v with ⟨d, e, f⟩; rcases w with ⟨g, h, i⟩
  simp only [Vec3.add_def, Vec3.ext_iff]
  refine ⟨by ring, by ring, by ring⟩

theorem neg_neg_eq (u : Vec3) : -(-u) = u := by
  rcases u with ⟨a, b, c⟩
  simp only [Vec3.neg_def, Vec3.ext_iff]
  refine ⟨by ring, by ring, by ring⟩

theorem add_neg_cancel_mid (u w : Vec3) : u + (w + -w) = u := by
  rcases u with ⟨a, b, c⟩; rcases w with ⟨g, h, i⟩
  simp only [Vec3.add_def, Vec3.neg_def, Vec3.ext_iff]
  refine ⟨by ring, by ring, by ring⟩

end Vec3

theorem f32_MIN_neg : f32_MIN < 0 := by
  have h : (2 : ℝ) ^ (104 : ℕ) < (2 : ℝ) ^ (128 : ℕ) := by
    apply pow_lt_pow_right₀ (by norm_num) (by norm_num)
  simp only [f32_MIN]
  linarith

theorem abs_gt_f32_MIN (x : ℝ) : |x| > f32_MIN :=
  lt_of_lt_of_le f32_MIN_neg (abs_nonneg x)

/-- The guard in `intersect_line` always holds, because `std::f32::MIN` is
negative: the function always returns `some` of the computed quotient. -/
theorem intersect_line_always_some (p : Plane) (point direction : Vec3) :
    p.intersect_line point direction = some (p.dot_point point / p.dot direction) := by
  simp only [Plane.intersect_line]
  rw [if_pos (abs_gt_f32_MIN _)]

theorem with_z_zero_eq : Plane.with_z 0 = Plane.new (Vec3.mk 0 0 1) 0 := by
  simp only [Plane.with_z, Plane.from_point_normal, Plane.new, Vec3.normalized,
    Vec3.mag, Vec3.dot, Vec3.div_scalar_def]
  norm_num

namespace Rotor3

theorem ext_m : ∀ {a b : Rotor3}, a.m = b.m → a = b := by
  rintro ⟨m, h⟩ ⟨m2, h2⟩ heq
  subst heq
  rfl

theorem ofFun_toFun (v : Vec3) : ofFun (toFun v) = v := rfl

theorem toFun_ofFun (f : Fin 3 → ℝ) : toFun (ofFun f) = f := by
  funext i
  fin_cases i <;> rfl

theorem toFun_add (a b : Vec3) : toFun (a + b) = toFun a + toFun b := by
  funext i
  fin_cases i <;> rfl

theorem toFun_neg (a : Vec3) : toFun (-a) = -(toFun a) := by
  funext i
  fin_cases i <;> rfl

theorem ofFun_add (f g : Fin 3 → ℝ) : ofFun (f + g) = ofFun f + ofFun g := rfl

theorem ofFun_neg (f : Fin 3 → ℝ) : ofFun (-f) = -(ofFun f) := rfl

theorem apply_add (r : Rotor3) (a b : Vec3) :
    r.apply (a + b) = r.apply a + r.apply b := by
  simp only [apply, toFun_add, Matrix.mulVec_add, ofFun_add]

theorem apply_neg (r : Rotor3) (a : Vec3) : r.apply (-a) = -(r.apply a) := by
  simp only [apply, toFun_neg, Matrix.mulVec_neg, ofFun_neg]

theorem reverse_apply_apply (r : Rotor3) (v : Vec3) :
    r.reverse.apply (r.apply v) = v := by
  simp only [apply, reverse, toFun_ofFun, Matrix.mulVec_mulVec,
    Matrix.mul_eq_one_comm.mp r.orth, Matrix.one_mulVec, ofFun_toFun]

theorem apply_reverse_apply (r : Rotor3) (v : Vec3) :
    r.apply (r.reverse.apply v) = v := by
  simp only [apply, reverse, toFun_ofFun, Matrix.mulVec_mulVec, r.orth,
    Matrix.one_mulVec, ofFun_toFun]

theorem mul_apply_eq (a b : Rotor3) (v : Vec3) :
    (a * b).apply v = a.apply (b.apply v) := by
  show (Rotor3.mul a b).apply v = a.apply (b.apply v)
  simp only [apply, mul, toFun_ofFun, Matrix.mulVec_mulVec]

theorem identity_apply (v : Vec3) : identity.apply v = v := by
  simp only [apply, identity, Matrix.one_mulVec, ofFun_toFun]

theorem reverse_reverse (r : Rotor3) : r.reverse.reverse = r :=
  ext_m (Matrix.transpose_transpose r.m)

theorem reverse_identity : identity.reverse = identity :=
  ext_m Matrix.transpose_one

end Rotor3

/-- Claim C10: for all planes `a` and `b`, `a.dot_plane(b) = b.dot_plane(a)`;
the 4-component inner product over `(normal, bias)` is commutative. -/
theorem dot_plane_comm (a b : Plane) : a.dot_plane b = b.dot_plane a := by
  simp only [Plane.dot_plane]
  ring

/-- Claim C4: for every isometry `I` and every vector `v`,
`I.inversed().transform_vec(I.transform_vec(v)) = v`, exactly over the reals,
the rotation's `reverse` being its algebraic inverse. -/
theorem isometry_inverse_roundtrip (I : Isometry3) (v : Vec3) :
    I.inversed.transform_vec (I.transform_vec v) = v := by
  rcases I with ⟨t, r⟩
  show r.reverse.apply (r.apply v + t) + r.reverse.apply (-t) = v
  rw [Rotor3.apply_add, Rotor3.apply_neg, Rotor3.reverse_apply_apply,
    Vec3.add_assoc_eq, Vec3.add_neg_cancel_mid]

/-- Claim C5: for all isometries `a`, `b` and every vector `v`,
`(a * b).transform_vec(v) = a.transform_vec(b.transform_vec(v))`, and the
composite has translation `a.transform_vec(b.translation)` and rotation
`a.rotation * b.rotation`. -/
theorem isometry_mul_spec (a b : Isometry3) (v : Vec3) :
    (a * b).transform_vec v = a.transform_vec (b.transform_vec v) ∧
    (a * b).translation = a.transform_vec b.translation ∧
    (a * b).rotation = a.rotation * b.rotation := by
  refine ⟨?_, rfl, rfl⟩
  rcases a with ⟨ta, ra⟩; rcases b with ⟨tb, rb⟩
  show (ra * rb).apply v + (ra.apply tb + ta) = ra.apply (rb.apply v + tb) + ta
  rw [Rotor3.mul_apply_eq, Rotor3.apply_add, Vec3.add_assoc_eq]

/-- Claim C6: `Isometry3::inverse` reverses the rotation first and then sets
the translation to the reversed (new) rotation applied to the negated old
translation; `inversed` returns this value functionally (the embedding is
pure, matching Rust's by-value `mut self`), and applying it twice restores
the original isometry. -/
theorem isometry_inverse_spec (i : Isometry3) :
    i.inversed.rotation = i.rotation.reverse ∧
    i.inversed.translation = i.rotation.reverse.apply (-i.translation) ∧
    i.inversed.inversed = i := by
  rcases i with ⟨t, r⟩
  refine ⟨rfl, rfl, ?_⟩
  show Isometry3.mk (r.reverse.reverse.apply (-(r.reverse.apply (-t)))) r.reverse.reverse
      = Isometry3.mk t r
  rw [Rotor3.reverse_reverse, Rotor3.apply_neg r.reverse t,
    Vec3.neg_neg_eq (r.reverse.apply t), Rotor3.apply_reverse_apply]

/-- Claim C1: the similarity inverse does not satisfy the round-trip
`S.inversed().transform_vec(S.transform_vec(v)) = v`.  At the similarity with
translation `(1,0,0)`, identity rotation and scale `2`, the round trip of
`v = (0,0,0)` yields `(-1/2, 0, 0) ≠ v`: the inverse translation formula
omits the division by scale. -/
theorem similarity_roundtrip_fails :
    (Similarity3.new ⟨1, 0, 0⟩ Rotor3.identity 2).inversed.transform_vec
        ((Similarity3.new ⟨1, 0, 0⟩ Rotor3.identity 2).transform_vec ⟨0, 0, 0⟩)
      = Vec3.mk (-(1 / 2)) 0 0 ∧
    Vec3.mk (-(1 / 2)) 0 0 ≠ Vec3.mk 0 0 0 := by
  constructor
  · show (1 / 2 : ℝ) • (Rotor3.identity.reverse.apply
        ((2 : ℝ) • (Rotor3.identity.apply ⟨0, 0, 0⟩) + ⟨1, 0, 0⟩))
        + Rotor3.identity.reverse.apply (-(⟨1, 0, 0⟩ : Vec3))
      = Vec3.mk (-(1 / 2)) 0 0
    rw [Rotor3.reverse_identity, Rotor3.identity_apply, Rotor3.identity_apply,
      Rotor3.identity_apply]
    simp only [Vec3.smul_def, Vec3.add_def, Vec3.neg_def, Vec3.ext_iff]
    norm_num
  · simp only [ne_eq, Vec3.ext_iff]
    norm_num

/-- Claim C2: a ray whose direction is orthogonal to the plane's normal does
*not* produce `None`: at `Plane::with_z(0.0)` and direction `(1,0,0)` the dot
product with the normal is zero, yet `intersect_line`, `intersect_ray` and
`intersect_plane` all return `Some`, because the guard compares `|fv|`
against the negative constant `std::f32::MIN`. -/
theorem parallel_ray_gives_some :
    (Plane.with_z 0).dot ⟨1, 0, 0⟩ = 0 ∧
    ((Plane.with_z 0).intersect_line ⟨0, 0, 1⟩ ⟨1, 0, 0⟩).isSome = true ∧
    ((Plane.with_z 0).intersect_ray (Ray.mk ⟨0, 0, 1⟩ ⟨1, 0, 0⟩)).isSome = true ∧
    ((Ray.mk ⟨0, 0, 1⟩ ⟨1, 0, 0⟩).intersect_plane (Plane.with_z 0)).isSome = true := by
  rw [with_z_zero_eq]
  refine ⟨?_, ?_, ?_, ?_⟩ <;>
    simp [Plane.new, Plane.dot, Plane.intersect_ray, Ray.intersect_plane,
      intersect_line_always_some]

/-- Claim C3: `intersect_line` does not implement the
smallest-positive-normal threshold: at the plane `new((0,0,1), 0)`, point
`(0,0,5)` and direction `(0,1,0)`, the dot product `fv = 0` does not exceed
`f32::MIN_POSITIVE`, yet the function still returns `Some` (never `None`),
because the source compares against `std::f32::MIN`, the most negative
finite float. -/
theorem intersect_line_threshold_fails :
    (Plane.new ⟨0, 0, 1⟩ 0).intersect_line ⟨0, 0, 5⟩ ⟨0, 1, 0⟩ ≠ none ∧
    ¬(|(Plane.new ⟨0, 0, 1⟩ 0).dot ⟨0, 1, 0⟩| > f32_MIN_POSITIVE) := by
  constructor
  · rw [intersect_line_always_some]
    simp
  · have hdot : (Plane.new ⟨0, 0, 1⟩ 0).dot ⟨0, 1, 0⟩ = 0 := by
      simp [Plane.new, Plane.dot]
    rw [hdot, abs_zero, f32_MIN_POSITIVE]
    norm_num

/-- Claim C7 counterexample: at the claim's literal inputs, `at_distance`
(which subtracts) produces `(-0.877520044, 1.43832867, 56.48744825)`, each
coordinate of which is more than `1` away from the point
`(0.9180751, -1.5048018, 47.10055)` the claim quotes — so the quoted point is
not approximately attained (it is `origin + direction * t` instead). -/
theorem at_distance_literal_refuted :
    (Ray.mk ⟨0.020277506, -0.033236530, 51.794⟩
        ⟨0.17955951, -0.29431304, -0.93868965⟩).at_distance 5
      = Vec3.mk (-0.877520044) 1.43832867 56.48744825 ∧
    |(-0.877520044 : ℝ) - 0.9180751| > 1 ∧
    |(1.43832867 : ℝ) - (-1.5048018)| > 1 ∧
    |(56.48744825 : ℝ) - 47.10055| > 1 := by
  refine ⟨?_, ?_, ?_, ?_⟩
  · show (⟨0.020277506, -0.033236530, 51.794⟩ : Vec3)
        - (⟨0.17955951, -0.29431304, -0.93868965⟩ : Vec3) * (5 : ℝ)
      = Vec3.mk (-0.877520044) 1.43832867 56.48744825
    simp only [Vec3.sub_def, Vec3.mul_scalar_def, Vec3.ext_iff]
    norm_num
  · rw [abs_of_nonpos (by norm_num)]
    norm_num
  · rw [abs_of_nonneg (by norm_num)]
    norm_num
  · rw [abs_of_nonneg (by norm_num)]
    norm_num

/-- Claim C7 (amended): `Ray::at_distance(t)` returns
`origin - direction * t` for every ray and scalar, and at the literal inputs
of the claim the result is `(-0.877520044, 1.43832867, 56.48744825)` exactly
(the claim's quoted point corresponds to `origin + direction * t`). -/
theorem at_distance_spec :
    (∀ (r : Ray) (t : ℝ), r.at_distance t = r.origin - r.direction * t) ∧
    (Ray.mk ⟨0.020277506, -0.033236530, 51.794⟩
        ⟨0.17955951, -0.29431304, -0.93868965⟩).at_distance 5
      = Vec3.mk (-0.877520044) 1.43832867 56.48744825 := by
  constructor
  · intro r t
    rfl
  · show (⟨0.020277506, -0.033236530, 51.794⟩ : Vec3)
        - (⟨0.17955951, -0.29431304, -0.93868965⟩ : Vec3) * (5 : ℝ)
      = Vec3.mk (-0.877520044) 1.43832867 56.48744825
    simp only [Vec3.sub_def, Vec3.mul_scalar_def, Vec3.ext_iff]
    norm_num

/-- Claim C8: for every similarity, `into_homogeneous_matrix()` equals
`Mat4::from_translation(translation)` times the homogeneous embedding of the
rotation's matrix; the result is independent of the scale field, and its 16
entries are exactly the rotation block, the translation column and the
homogeneous `1` — scale appears nowhere. -/
theorem similarity_homogeneous_matrix (t : Vec3) (r : Rotor3) (s s2 : ℝ) :
    (Similarity3.new t r s).into_homogeneous_matrix
        = Mat4.from_translation t * Mat3.into_homogeneous (Rotor3.into_matrix r) ∧
    (Similarity3.new t r s).into_homogeneous_matrix
        = (Similarity3.new t r s2).into_homogeneous_matrix ∧
    (Similarity3.new t r s).into_homogeneous_matrix
        = !![r.m 0 0, r.m 0 1, r.m 0 2, t.x;
             r.m 1 0, r.m 1 1, r.m 1 2, t.y;
             r.m 2 0, r.m 2 1, r.m 2 2, t.z;
             0, 0, 0, 1] := by
  refine ⟨rfl, rfl, ?_⟩
  show Mat4.from_translation t * Mat3.into_homogeneous (Rotor3.into_matrix r) = _
  ext i j
  fin_cases i <;> fin_cases j <;>
    simp [Mat4.from_translation, Mat3.into_homogeneous, Rotor3.into_matrix,
      Matrix.mul_apply, Fin.sum_univ_four]

/-- Claim C9: for every plane with nonzero normal, `normalize()` divides both
`normal` and `bias` by `|normal|`, the resulting normal has magnitude `1`,
and every point on the original plane (`dot_point = 0`) is on the normalized
plane as well. -/
theorem plane_normalize_spec (p : Plane) (q : Vec3)
    (hn : p.normal ≠ Vec3.zero) (hq : p.dot_point q = 0) :
    p.normalize.normal = p.normal / p.normal.mag ∧
    p.normalize.bias = p.bias / p.normal.mag ∧
    (p.normalize.normal).mag = 1 ∧
    p.normalize.dot_point q = 0 := by
  have hc : p.normal.mag ≠ 0 := ne_of_gt (Vec3.mag_pos hn)
  have hsq : p.normal.mag * p.normal.mag = p.normal.dot p.normal := Vec3.mag_sq
  refine ⟨rfl, rfl, ?_, ?_⟩
  · show Vec3.mag (p.normal / p.normal.mag) = 1
    have hdot : (p.normal / p.normal.mag).dot (p.normal / p.normal.mag) = 1 := by
      rcases hp : p.normal with ⟨nx, ny, nz⟩
      rw [hp] at hsq hc
      simp only [Vec3.div_scalar_def, Vec3.dot] at hsq ⊢
      field_simp
      linarith [hsq]
    rw [Vec3.mag, hdot, Real.sqrt_one]
  · show (p.normal / p.normal.mag).x * q.x + (p.normal / p.normal.mag).y * q.y
        + (p.normal / p.normal.mag).z * q.z + p.bias / p.normal.mag = 0
    have hq2 : p.normal.x * q.x + p.normal.y * q.y + p.normal.z * q.z + p.bias = 0 := hq
    simp only [Vec3.div_scalar_def]
    field_simp
    linarith [hq2]

/-- Witness for C9: the plane `new((0,0,2), 4)` has nonzero normal and the
point `(0,0,-2)` lies on it; after `normalize()` the normal has magnitude `1`
and the point still evaluates to `0`. -/
theorem plane_normalize_witness :
    (Plane.new ⟨0, 0, 2⟩ 4).normal ≠ Vec3.zero ∧
    (Plane.new ⟨0, 0, 2⟩ 4).dot_point ⟨0, 0, -2⟩ = 0 ∧
    ((Plane.new ⟨0, 0, 2⟩ 4).normalize.normal).mag = 1 ∧
    (Plane.new ⟨0, 0, 2⟩ 4).normalize.dot_point ⟨0, 0, -2⟩ = 0 := by
  have hn : (Plane.new ⟨0, 0, 2⟩ 4).normal ≠ Vec3.zero := by
    simp only [Plane.new, Vec3.zero, ne_eq, Vec3.ext_iff]
    norm_num
  have hq : (Plane.new ⟨0, 0, 2⟩ 4).dot_point ⟨0, 0, -2⟩ = 0 := by
    show (0 : ℝ) * 0 + 0 * 0 + 2 * (-2) + 4 = 0
    norm_num
  obtain ⟨h1, h2, h3, h4⟩ := plane_normalize_spec (Plane.new ⟨0, 0, 2⟩ 4) ⟨0, 0, -2⟩ hn hq
  exact ⟨hn, hq, h3, h4⟩
